import Mathlib

/-!
Verification of the simrunner core: run staging/deduplication, schema
inference from control-file names, file resolution, and the bounded
concurrency process supervisor.

The core module is modelled from the specification: the repository's
notebooks exercise `Run`, `Runner.stage`, `Runner.get_runs`,
`Runner.remove_runs`, `Runner.run` and `Runner.stop`, and the definitions
below embed the documented semantics of those operations as executable
Lean functions and a step relation for the supervisor.
-/

namespace Simrunner

/-! ## Definitions -/

/-- Modelled from the spec: a Run is an immutable mapping of
scenario-argument keys to values (`Run(s1="DES", e1="M720", ...)`),
embedded as an association list of key/value pairs. -/
abbrev Run := List (String × String)

/-- Lookup of a key's value in a Run's mapping. -/
def runLookup : Run → String → Option String
  | [], _ => none
  | (k', v) :: rest, k => if k' = k then some v else runLookup rest k

/-- The argument keys of a Run. -/
def runKeys (r : Run) : List String := r.map Prod.fst

/-- The argument values of a Run, regardless of which key holds them. -/
def runValues (r : Run) : List String := r.map Prod.snd

/-- Modelled from the spec: two Runs are equal iff their key/value
mappings are equal; this value-equality is the basis for deduplication. -/
def runEq (a b : Run) : Bool :=
  (runKeys a).all (fun k => runLookup a k == runLookup b k) &&
  (runKeys b).all (fun k => runLookup a k == runLookup b k)

/-- Boolean equality of two key lists as sets. -/
def keySetEq (a b : List String) : Bool :=
  a.all (fun x => decide (x ∈ b)) && b.all (fun x => decide (x ∈ a))

/-- Whether a value-equal copy of `r` is already present in the store. -/
def present (store : List Run) (r : Run) : Bool :=
  store.any (fun a => runEq a r)

/-- Modelled from the spec: staging one Run skips (no-op) any Run already
present by value-equality, otherwise appends it, preserving insertion
order. -/
def stageOne (store : List Run) (r : Run) : List Run :=
  if present store r then store else store ++ [r]

/-- The Run Store invariant: staged Runs are pairwise distinct by
value-equality (duplicate-free). -/
def StoreInv (store : List Run) : Prop :=
  store.Pairwise (fun a b => runEq a b = false)

/-- Membership in a store up to Run value-equality. -/
def MemR (r : Run) (store : List Run) : Prop :=
  ∃ a ∈ store, runEq a r = true

/-- Whether a Run's value set intersects the filter values. -/
def matchesAny (filters : List String) (r : Run) : Bool :=
  filters.any (fun v => decide (v ∈ runValues r))

/-- Whether a Run's value set is a superset of the filter values. -/
def matchesAll (filters : List String) (r : Run) : Bool :=
  filters.all (fun v => decide (v ∈ runValues r))

/-- Modelled from the spec: `get(filters…, match_any)` returns the ordered
sub-sequence of staged Runs whose value set intersects (`any = true`) or
is a superset of (`any = false`) the filter values, compared across all
argument values regardless of key; absence of filters returns all Runs. -/
def getRuns (store : List Run) (filters : List String) (any : Bool) :
    List Run :=
  if filters.isEmpty then store
  else store.filter (fun r => if any then matchesAny filters r
                              else matchesAll filters r)

inductive StageError where
  | schemaMismatch
deriving DecidableEq, Repr

/-- Whether a Run's key set exactly equals the schema's key set. -/
def runKeysMatch (schema : List String) (r : Run) : Bool :=
  keySetEq (runKeys r) schema

/-- Modelled from the spec: `stage(one-or-many Runs)` validates every
candidate's key set against the active Argument Schema, failing with
SchemaMismatchError (nothing added) if keys do not match exactly;
otherwise it appends each candidate not already present by
value-equality, preserving insertion order. -/
def stage (schema : List String) (store : List Run)
    (candidates : List Run) : Except StageError (List Run) :=
  if candidates.all (runKeysMatch schema) then
    .ok (candidates.foldl stageOne store)
  else
    .error .schemaMismatch

/-- Modelled from the spec: a Run Store seeded from the union of other
stores' contents, duplicates dropped, later sources not overwriting
earlier ones. -/
def mergeStores (sources : List (List Run)) : List Run :=
  sources.foldl (fun acc s => s.foldl stageOne acc) []

/-- Splitting a character list on underscores. -/
def splitUnderscore : List Char → List (List Char)
  | [] => [[]]
  | c :: rest =>
    match splitUnderscore rest with
    | [] => if c = '_' then [[], []] else [[c]]
    | w :: ws => if c = '_' then [] :: w :: ws else (c :: w) :: ws

/-- The characters of a name before the first dot (the file stem). -/
def takeUntilDot : List Char → List Char
  | [] => []
  | c :: rest => if c = '.' then [] else c :: takeUntilDot rest

/-- Strips the surrounding tildes of an argument placeholder such as
`~s1~`; `none` when the token is not a placeholder. -/
def stripTilde (w : List Char) : Option (List Char) :=
  match w with
  | '~' :: rest =>
    match rest.getLast? with
    | some '~' => if rest.length ≥ 1 then some rest.dropLast else none
    | _ => none
  | _ => none

/-- A control file, as read off its name per the naming grammar
`GROUPID_(placeholder)*_RUNNUMBER.ext`. -/
structure ControlFile where
  group : String
  keys : List String
  runNumber : String
deriving DecidableEq, Repr

/-- Modelled from the spec: parsing a control-file name into its group
prefix, embedded argument-key placeholders, and run-number suffix. -/
def parseControlName (name : String) : Option ControlFile :=
  match splitUnderscore (takeUntilDot name.data) with
  | [] => none
  | [_] => none
  | g :: rest =>
    some ⟨⟨g⟩, rest.dropLast.filterMap (fun w => (stripTilde w).map (⟨·⟩)),
          ⟨rest.getLastD []⟩⟩

/-- The control files of one group: all files when no group id is given,
otherwise the files carrying the group prefix. -/
def relevantFiles (files : List ControlFile) (group : Option String) :
    List ControlFile :=
  match group with
  | none => files
  | some g => files.filter (fun f => f.group = g)

inductive SchemaError where
  | mismatch
deriving DecidableEq, Repr

/-- An inferred Argument Schema: the canonical ordered key sequence and
the run-numbers observed for the group. -/
structure Schema where
  keys : List String
  runNumbers : List String
deriving DecidableEq, Repr

/-- Modelled from the spec: schema inference collects the argument keys
embedded in the group's control-file names and fails with a SchemaError
when files in the same group disagree on which keys are present. -/
def inferSchema (files : List ControlFile) (group : Option String) :
    Except SchemaError Schema :=
  match relevantFiles files group with
  | [] => .ok ⟨[], []⟩
  | f :: rest =>
    if rest.all (fun f2 => keySetEq f.keys f2.keys) then
      .ok ⟨f.keys, (f :: rest).map (·.runNumber)⟩
    else
      .error .mismatch

/-- Schema inference straight from a list of control-file names. -/
def inferSchemaNames (names : List String) (group : Option String) :
    Except SchemaError Schema :=
  inferSchema (names.filterMap parseControlName) group

/-- Boolean list-prefix test. -/
def listPrefixB : List Char → List Char → Bool
  | [], _ => true
  | _ :: _, [] => false
  | a :: as, b :: bs => a = b && listPrefixB as bs

/-- Boolean list-infix test. -/
def listInfixB (pat : List Char) : List Char → Bool
  | [] => listPrefixB pat []
  | c :: rest => listPrefixB pat (c :: rest) || listInfixB pat rest

/-- Boolean list-suffix test. -/
def listSuffixB (pat s : List Char) : Bool :=
  listPrefixB pat.reverse s.reverse

/-- The expected filename fragment: the Run's values joined by
underscores in the Argument Schema's key order. -/
def argFragment (schema : List String) (r : Run) : List Char :=
  joinUnderscore ((schema.filterMap (runLookup r)).map String.data)
where
  joinUnderscore : List (List Char) → List Char
    | [] => []
    | [w] => w
    | w :: ws => w ++ '_' :: joinUnderscore ws

inductive ResolveError where
  | resolution
  | ambiguous
deriving DecidableEq, Repr

/-- Modelled from the spec: whether a control-file name contains the
group prefix, the ordered argument-value fragment, and the run-number
suffix (or no run-number suffix at all when the run-number is omitted). -/
def nameMatches (group : String) (schema : List String) (r : Run)
    (runNumber : Option String) (name : String) : Bool :=
  listPrefixB (group.data ++ ['_']) name.data &&
  listInfixB (argFragment schema r) name.data &&
  match runNumber with
  | some n => listSuffixB ('_' :: n.data ++ ('.' :: "tcf".data)) name.data
  | none => listSuffixB (argFragment schema r ++ ('.' :: "tcf".data)) name.data

/-- Modelled from the spec: the File Resolver maps (Run, run-number,
group id) to exactly one control-file path; zero matches raise
ResolutionError, several raise AmbiguousResolutionError. -/
def resolveFile (files : List String) (group : String)
    (schema : List String) (r : Run) (runNumber : Option String) :
    Except ResolveError String :=
  match files.filter (nameMatches group schema r runNumber) with
  | [] => .error .resolution
  | [f] => .ok f
  | _ :: _ :: _ => .error .ambiguous

/-- Modelled from the spec: the supervisor's state — Queued work,
currently Running processes, finished processes with recorded exit
codes, and the cooperative cancellation flag. -/
structure SupState (α : Type) where
  queued : List α
  running : List α
  finished : List (α × Int)
  cancelled : Bool
deriving Repr

/-- Modelled from the spec: the dispatch loop's transitions. `start`
fills a free slot (only below the `async_runs` limit and only when no
cancellation has been requested), `exit` records a finished process's
exit code, and `stop` sets the cancellation flag. -/
inductive SupStep {α : Type} [DecidableEq α] (limit : Nat) :
    SupState α → SupState α → Prop
  | start (r : α) (rest running : List α) (finished : List (α × Int)) :
      running.length < limit →
      SupStep limit ⟨r :: rest, running, finished, false⟩
        ⟨rest, r :: running, finished, false⟩
  | exit (r : α) (code : Int) (queued running : List α)
      (finished : List (α × Int)) (c : Bool) :
      r ∈ running →
      SupStep limit ⟨queued, running, finished, c⟩
        ⟨queued, running.erase r, (r, code) :: finished, c⟩
  | stop (queued running : List α) (finished : List (α × Int)) (c : Bool) :
      SupStep limit ⟨queued, running, finished, c⟩
        ⟨queued, running, finished, true⟩

/-- Reflexive-transitive closure of the supervisor's step relation. -/
inductive SupReachable {α : Type} [DecidableEq α] (limit : Nat)
    (init : SupState α) : SupState α → Prop
  | refl : SupReachable limit init init
  | step {s s' : SupState α} : SupReachable limit init s →
      SupStep limit s s' → SupReachable limit init s'

/-- Modelled from the spec: the sequential skeleton of the dispatch
loop — each queued item is dispatched and its exit code recorded,
with no branch on the code (a non-zero exit does not halt dispatch). -/
def runLoop {α : Type} (exitCode : α → Int) :
    List α → List (α × Int) → List (α × Int)
  | [], finished => finished
  | r :: rest, finished => runLoop exitCode rest ((r, exitCode r) :: finished)

/-- Modelled from the spec: `run()` blocks until the entire staged queue
has reached a terminal state and reports the completion summary, unless
cancellation was requested; the Bool records whether the
"all runs complete" summary is reported. -/
def runAll {α : Type} (exitCode : α → Int) (s : SupState α) :
    SupState α × Bool :=
  if s.cancelled then (s, false)
  else (⟨[], s.running, runLoop exitCode s.queued s.finished, false⟩, true)

/-- Modelled from the spec: `stop()` sets the cancellation flag,
gracefully interrupts every Running process and waits for each to exit
with the interrupt's exit code, refusing to start any Queued work. -/
def stopDrain {α : Type} (icode : Int) (s : SupState α) : SupState α :=
  ⟨s.queued, [], runLoop (fun _ => icode) s.running s.finished, true⟩

/-- Modelled from the spec: the Runner holds the staged Run Store and
dispatches it through the process supervisor. -/
structure Runner where
  store : List Run

/-- The staged Runs of a Runner, optionally filtered. -/
def Runner.get_runs (rn : Runner) (filters : List String) (any : Bool) :
    List Run :=
  getRuns rn.store filters any

/-- Modelled from the spec: `run()` seeds the supervisor's queue from
the staged Run Store, executes the whole queue, and returns (the Runner,
the supervisor's final state, whether the completion summary was
reported); the Run Store itself is not consumed. -/
def Runner.run (rn : Runner) (exitCode : Run → Int) :
    Runner × SupState Run × Bool :=
  let res := runAll exitCode ⟨rn.store, [], [], false⟩
  (rn, res.1, res.2)

/-- The Run `{s1:A, e1:X}` of the spec's filter-semantics example. -/
def runAX : Run := [("s1", "A"), ("e1", "X")]

/-- The Run `{s1:B, e1:Y}` of the spec's filter-semantics example. -/
def runBY : Run := [("s1", "B"), ("e1", "Y")]

/-- Three distinct Runs from the notebook's merge example. -/
def runEx1 : Run := [("s1", "EX"), ("e1", "M120"), ("e2", "CC")]

def runEx2 : Run := [("s1", "DES"), ("e1", "M120"), ("e2", "CC")]

def runEx3 : Run := [("s1", "DES"), ("e1", "M45"), ("e2", "NC")]

/-- The Run `{s1:"Exg", e1:"Q100"}` of the round-trip resolution
example. -/
def run006 : Run := [("s1", "Exg"), ("e1", "Q100")]

/-- Control-file names present under the demonstration root. -/
def demoFiles : List String :=
  ["EG16_~s1~_001.tcf", "EG16_~e1~_~e2~_005.tcf", "EG16_Exg_Q100_005.tcf",
   "EG16_Exg_Q100_006.tcf", "EG16_D01_Q100_006.tcf", "EG16_Exg_QPMF_006.tcf"]

/-- Two control files of one group disagreeing on the embedded key set,
as in the spec's schema-consistency example. -/
def mismatchFiles : List ControlFile :=
  [⟨"G", ["s1", "e1"], "01"⟩, ⟨"G", ["s1", "e1", "e2"], "01"⟩]

/-! ## Basic lemmas -/

theorem keySetEq_iff {a b : List String} :
    keySetEq a b = true ↔ (∀ x, x ∈ a ↔ x ∈ b) := by
  simp only [keySetEq, Bool.and_eq_true, List.all_eq_true, decide_eq_true_eq]
  constructor
  · rintro ⟨h1, h2⟩ x
    exact ⟨fun hx => h1 x hx, fun hx => h2 x hx⟩
  · intro h
    exact ⟨fun x hx => (h x).mp hx, fun x hx => (h x).mpr hx⟩

theorem keySetEq_refl (a : List String) : keySetEq a a = true :=
  keySetEq_iff.mpr (fun _ => Iff.rfl)

theorem keySetEq_symm {a b : List String} (h : keySetEq a b = true) :
    keySetEq b a = true :=
  keySetEq_iff.mpr (fun x => (keySetEq_iff.mp h x).symm)

theorem keySetEq_trans {a b c : List String} (h1 : keySetEq a b = true)
    (h2 : keySetEq b c = true) : keySetEq a c = true :=
  keySetEq_iff.mpr (fun x => (keySetEq_iff.mp h1 x).trans (keySetEq_iff.mp h2 x))

theorem runLookup_isSome_iff {r : Run} {k : String} :
    (runLookup r k).isSome = true ↔ k ∈ runKeys r := by
  induction r with
  | nil => simp [runLookup, runKeys]
  | cons p rest ih =>
    obtain ⟨k', v⟩ := p
    simp only [runLookup, runKeys, List.map_cons, List.mem_cons]
    by_cases h : k' = k
    · simp [h]
    · simp only [if_neg h]
      rw [ih]
      constructor
      · intro hm; exact Or.inr hm
      · rintro (hm | hm)
        · exact absurd hm.symm h
        · exact hm

theorem runEq_iff {a b : Run} :
    runEq a b = true ↔ (∀ k, runLookup a k = runLookup b k) := by
  simp only [runEq, Bool.and_eq_true, List.all_eq_true, beq_iff_eq]
  constructor
  · rintro ⟨h1, h2⟩ k
    by_cases ha : k ∈ runKeys a
    · exact h1 k ha
    · by_cases hb : k ∈ runKeys b
      · exact h2 k hb
      · have hna : runLookup a k = none := by
          cases hsa : runLookup a k with
          | none => rfl
          | some v => exact absurd (runLookup_isSome_iff.mp (by simp [hsa])) ha
        have hnb : runLookup b k = none := by
          cases hsb : runLookup b k with
          | none => rfl
          | some v => exact absurd (runLookup_isSome_iff.mp (by simp [hsb])) hb
        rw [hna, hnb]
  · intro h
    exact ⟨fun k _ => h k, fun k _ => h k⟩

theorem runEq_refl (a : Run) : runEq a a = true :=
  runEq_iff.mpr (fun _ => rfl)

theorem runEq_symm {a b : Run} (h : runEq a b = true) : runEq b a = true :=
  runEq_iff.mpr (fun k => (runEq_iff.mp h k).symm)

theorem runEq_trans {a b c : Run} (h1 : runEq a b = true)
    (h2 : runEq b c = true) : runEq a c = true :=
  runEq_iff.mpr (fun k => (runEq_iff.mp h1 k).trans (runEq_iff.mp h2 k))

theorem present_iff {store : List Run} {r : Run} :
    present store r = true ↔ MemR r store := by
  simp [present, MemR, List.any_eq_true]

theorem stageOne_of_present {store : List Run} {r : Run}
    (h : present store r = true) : stageOne store r = store := by
  simp [stageOne, h]

theorem stageOne_of_not_present {store : List Run} {r : Run}
    (h : present store r = false) : stageOne store r = store ++ [r] := by
  simp [stageOne, h]

theorem memR_stageOne {store : List Run} {r x : Run} :
    MemR x (stageOne store r) ↔ MemR x store ∨ runEq r x = true := by
  by_cases h : present store r = true
  · rw [stageOne_of_present h]
    constructor
    · exact Or.inl
    · rintro (hm | hrx)
      · exact hm
      · obtain ⟨a, ha, har⟩ := present_iff.mp h
        exact ⟨a, ha, runEq_trans har hrx⟩
  · rw [stageOne_of_not_present (by simpa using h)]
    constructor
    · rintro ⟨a, ha, hax⟩
      rcases List.mem_append.mp ha with hm | hm
      · exact Or.inl ⟨a, hm, hax⟩
      · simp only [List.mem_singleton] at hm
        subst hm
        exact Or.inr hax
    · rintro (⟨a, ha, hax⟩ | hrx)
      · exact ⟨a, List.mem_append.mpr (Or.inl ha), hax⟩
      · exact ⟨r, List.mem_append.mpr (Or.inr (List.mem_singleton.mpr rfl)), hrx⟩

theorem storeInv_stageOne {store : List Run} (r : Run)
    (h : StoreInv store) : StoreInv (stageOne store r) := by
  by_cases hp : present store r = true
  · rwa [stageOne_of_present hp]
  · rw [stageOne_of_not_present (by simpa using hp)]
    rw [StoreInv, List.pairwise_append]
    refine ⟨h, List.pairwise_singleton _ _, ?_⟩
    intro a ha b hb
    simp only [List.mem_singleton] at hb
    subst hb
    cases hcase : runEq a b with
    | false => rfl
    | true => exact absurd (present_iff.mpr ⟨a, ha, hcase⟩) hp

/-- In a duplicate-free store, a Run that is present has exactly one
value-equal copy. -/
theorem count_eq_one_of_present {store : List Run} {r : Run}
    (hinv : StoreInv store) (hp : present store r = true) :
    store.countP (fun a => runEq a r) = 1 := by
  induction store with
  | nil => simp [present] at hp
  | cons h t ih =>
    rw [StoreInv, List.pairwise_cons] at hinv
    obtain ⟨hhead, htail⟩ := hinv
    by_cases hhr : runEq h r = true
    · have htz : t.countP (fun a => runEq a r) = 0 := by
        rw [List.countP_eq_zero]
        intro a ha
        simp only [Bool.not_eq_true]
        cases hcase : runEq a r with
        | false => rfl
        | true =>
          exfalso
          have : runEq h a = true := runEq_trans hhr (runEq_symm hcase)
          rw [hhead a ha] at this
          exact absurd this (by simp)
      rw [List.countP_cons_of_pos _ _ (by simpa using hhr), htz]
    · have hpt : present t r = true := by
        simp only [present, List.any_eq_true] at hp ⊢
        rcases hp with ⟨a, ha, har⟩
        rcases List.mem_cons.mp ha with rfl | hm
        · exact absurd har hhr
        · exact ⟨a, hm, har⟩
      rw [List.countP_cons_of_neg _ _ (by simpa using hhr)]
      exact ih htail hpt

theorem memR_foldl_stageOne {x : Run} :
    ∀ (l : List Run) (acc : List Run),
      MemR x (l.foldl stageOne acc) ↔ MemR x acc ∨ MemR x l := by
  intro l
  induction l with
  | nil => simp [MemR]
  | cons r t ih =>
    intro acc
    rw [List.foldl_cons, ih, memR_stageOne]
    constructor
    · rintro ((hm | hrx) | hm)
      · exact Or.inl hm
      · exact Or.inr ⟨r, List.mem_cons_self _ _, runEq_symm (runEq_symm hrx)⟩
      · rcases hm with ⟨a, ha, hax⟩
        exact Or.inr ⟨a, List.mem_cons_of_mem _ ha, hax⟩
    · rintro (hm | ⟨a, ha, hax⟩)
      · exact Or.inl (Or.inl hm)
      · rcases List.mem_cons.mp ha with rfl | hm
        · exact Or.inl (Or.inr hax)
        · exact Or.inr ⟨a, hm, hax⟩

theorem storeInv_foldl_stageOne :
    ∀ (l : List Run) (acc : List Run),
      StoreInv acc → StoreInv (l.foldl stageOne acc) := by
  intro l
  induction l with
  | nil => intro acc h; exact h
  | cons r t ih =>
    intro acc h
    rw [List.foldl_cons]
    exact ih _ (storeInv_stageOne r h)

theorem foldl_stageOne_of_all_present {l acc : List Run}
    (h : ∀ r ∈ l, present acc r = true) : l.foldl stageOne acc = acc := by
  induction l with
  | nil => rfl
  | cons r t ih =>
    rw [List.foldl_cons, stageOne_of_present (h r (List.mem_cons_self _ _))]
    exact ih (fun x hx => h x (List.mem_cons_of_mem _ hx))

theorem mem_runLoop {α : Type} (exitCode : α → Int) :
    ∀ (l : List α) (fin : List (α × Int)) (r : α), r ∈ l →
      (r, exitCode r) ∈ runLoop exitCode l fin := by
  intro l
  induction l with
  | nil => intro fin r h; cases h
  | cons x t ih =>
    intro fin r h
    rcases List.mem_cons.mp h with rfl | hm
    · rw [runLoop]
      exact sub_mem_runLoop _ _ _ (List.mem_cons_self _ _)
    · exact ih _ r hm
where
  sub_mem_runLoop (l : List α) (fin : List (α × Int)) (p : α × Int)
      (h : p ∈ fin) : p ∈ runLoop exitCode l fin := by
    induction l generalizing fin with
    | nil => exact h
    | cons x t ih => exact ih _ (List.mem_cons_of_mem _ h)

theorem runLoop_eq_reverse_map {α : Type} (exitCode : α → Int) :
    ∀ (l : List α) (fin : List (α × Int)),
      runLoop exitCode l fin =
        (l.map (fun r => (r, exitCode r))).reverse ++ fin := by
  intro l
  induction l with
  | nil => intro fin; simp [runLoop]
  | cons x t ih =>
    intro fin
    rw [runLoop, ih, List.map_cons, List.reverse_cons, List.append_assoc]
    rfl

/-- A step taken from a cancelled state leaves the queue untouched and
the cancellation flag set: no Queued work is ever started. -/
theorem supStep_cancelled_frame {α : Type} [DecidableEq α] {limit : Nat}
    {s s' : SupState α} (hstep : SupStep limit s s')
    (hc : s.cancelled = true) : s'.queued = s.queued ∧ s'.cancelled = true := by
  cases hstep with
  | start r rest running finished hlen => cases hc
  | exit r code queued running finished c hm =>
    exact ⟨rfl, hc⟩
  | stop queued running finished c => exact ⟨rfl, rfl⟩

theorem supReachable_cancelled_frame {α : Type} [DecidableEq α]
    {limit : Nat} {init s : SupState α} (hr : SupReachable limit init s)
    (hc : init.cancelled = true) :
    s.queued = init.queued ∧ s.cancelled = true := by
  induction hr with
  | refl => exact ⟨rfl, hc⟩
  | step _ hstep ih =>
    obtain ⟨hq, hcc⟩ := ih
    obtain ⟨hq', hcc'⟩ := supStep_cancelled_frame hstep hcc
    exact ⟨hq'.trans hq, hcc'⟩

theorem supReachable_trans {α : Type} [DecidableEq α] {limit : Nat}
    {a b c : SupState α} (hab : SupReachable limit a b)
    (hbc : SupReachable limit b c) : SupReachable limit a c := by
  induction hbc with
  | refl => exact hab
  | step _ hstep ih => exact SupReachable.step ih hstep

/-- Draining the Running processes one by one is a real behavior of the
step relation. -/
theorem supReachable_drain {α : Type} [DecidableEq α] (limit : Nat)
    (icode : Int) :
    ∀ (running : List α) (queued : List α) (finished : List (α × Int)),
      SupReachable limit (⟨queued, running, finished, true⟩ : SupState α)
        ⟨queued, [], runLoop (fun _ => icode) running finished, true⟩ := by
  intro running
  induction running with
  | nil => intro queued finished; exact SupReachable.refl
  | cons r t ih =>
    intro queued finished
    have hstep : SupStep limit (⟨queued, r :: t, finished, true⟩ : SupState α)
        ⟨queued, t, (r, icode) :: finished, true⟩ := by
      have h : SupStep limit (⟨queued, r :: t, finished, true⟩ : SupState α)
          ⟨queued, (r :: t).erase r, (r, icode) :: finished, true⟩ :=
        SupStep.exit r icode queued (r :: t) finished true
          (List.mem_cons_self _ _)
      rwa [List.erase_cons_head] at h
    exact supReachable_trans (SupReachable.step SupReachable.refl hstep)
      (ih queued ((r, icode) :: finished))

/-- The number of Running processes never grows past the `async_runs`
limit along any step. -/
theorem supStep_running_bound {α : Type} [DecidableEq α] {limit : Nat}
    {s s' : SupState α} (hstep : SupStep limit s s')
    (h : s.running.length ≤ limit) : s'.running.length ≤ limit := by
  cases hstep with
  | start r rest running finished hlen =>
    simpa using hlen
  | exit r code queued running finished c hm =>
    exact le_trans ((running.erase_sublist r).length_le) h
  | stop queued running finished c => exact h

/-- Sequential execution of the whole queue (start one, wait for its
exit, record the code, repeat) is a real behavior of the step relation
whenever at least one slot is configured. -/
theorem supReachable_runQueue {α : Type} [DecidableEq α] {limit : Nat}
    (hlimit : 1 ≤ limit) (exitCode : α → Int) :
    ∀ (queued : List α) (finished : List (α × Int)),
      SupReachable limit (⟨queued, [], finished, false⟩ : SupState α)
        ⟨[], [], runLoop exitCode queued finished, false⟩ := by
  intro queued
  induction queued with
  | nil => intro finished; exact SupReachable.refl
  | cons r t ih =>
    intro finished
    have hstart : SupStep limit (⟨r :: t, [], finished, false⟩ : SupState α)
        ⟨t, [r], finished, false⟩ :=
      SupStep.start r t [] finished (by simpa using hlimit)
    have hexit : SupStep limit (⟨t, [r], finished, false⟩ : SupState α)
        ⟨t, [], (r, exitCode r) :: finished, false⟩ := by
      have h : SupStep limit (⟨t, [r], finished, false⟩ : SupState α)
          ⟨t, [r].erase r, (r, exitCode r) :: finished, false⟩ :=
        SupStep.exit r (exitCode r) t [r] finished false
          (List.mem_singleton.mpr rfl)
      rwa [List.erase_cons_head] at h
    exact supReachable_trans
      (SupReachable.step (SupReachable.step SupReachable.refl hstart) hexit)
      (ih ((r, exitCode r) :: finished))

/-! ## Claims -/

/-- Claim C2: staging a Run whose argument-key set does not exactly equal
the active Argument Schema's key set fails with SchemaMismatchError and
nothing is added (the error result carries no store, so the Run Store is
left unchanged); a Run whose key set matches exactly is accepted; and a
batch containing any mismatching candidate fails as a whole. -/
theorem stage_schema_mismatch (schema : List String) (store : List Run)
    (r : Run) :
    (¬ (∀ k, k ∈ runKeys r ↔ k ∈ schema) →
      stage schema store [r] = .error .schemaMismatch) ∧
    ((∀ k, k ∈ runKeys r ↔ k ∈ schema) →
      stage schema store [r] = .ok (stageOne store r)) ∧
    (∀ candidates : List Run,
      (∃ x ∈ candidates, runKeysMatch schema x = false) →
        stage schema store candidates = .error .schemaMismatch) := by
  refine ⟨?_, ?_, ?_⟩
  · intro h
    have hf : runKeysMatch schema r = false := by
      cases hcase : runKeysMatch schema r with
      | false => rfl
      | true => exact absurd (keySetEq_iff.mp hcase) h
    simp [stage, hf]
  · intro h
    have ht : runKeysMatch schema r = true := keySetEq_iff.mpr h
    simp only [stage, List.all_cons, List.all_nil, ht, Bool.and_true,
      if_true]
    rfl
  · intro candidates ⟨x, hx, hxf⟩
    have : candidates.all (runKeysMatch schema) = false := by
      rw [List.all_eq_false]
      exact ⟨x, hx, by simp [hxf]⟩
    simp [stage, this]

/-- Claim C2 witness: `{s1:A}` fails against schema `[s1, e1]`;
`{s1:A, e1:X}` is accepted and appended. -/
theorem stage_schema_mismatch_witness :
    stage ["s1", "e1"] [] [[("s1", "A")]] = .error .schemaMismatch ∧
    stage ["s1", "e1"] [] [runAX] = .ok [runAX] := by
  constructor
  · exact (stage_schema_mismatch ["s1", "e1"] [] [("s1", "A")]).1
      (fun h => by
        have h2 := (h "e1").mpr (by decide)
        revert h2
        decide)
  · have h := (stage_schema_mismatch ["s1", "e1"] [] runAX).2.1
      (by
        intro k
        rw [show runKeys runAX = ["s1", "e1"] from rfl])
    exact h.trans (by rfl)

/-- Claim C3: with `match_any = true`, `get` returns exactly the staged
Runs whose value set intersects the filter values; with
`match_any = false`, exactly those whose value set is a superset of the
filter values; values are compared regardless of key; an empty filter
list returns all staged Runs; the result is an ordered duplicate-free
sub-sequence of the store; and the spec's concrete example evaluates as
stated. -/
theorem getRuns_filter_semantics (store : List Run)
    (filters : List String) (b : Bool) :
    getRuns store [] b = store ∧
    (getRuns store filters b).Sublist store ∧
    (filters ≠ [] → ∀ r, r ∈ getRuns store filters true ↔
        r ∈ store ∧ ∃ v ∈ filters, v ∈ runValues r) ∧
    (filters ≠ [] → ∀ r, r ∈ getRuns store filters false ↔
        r ∈ store ∧ ∀ v ∈ filters, v ∈ runValues r) ∧
    (StoreInv store → StoreInv (getRuns store filters b)) ∧
    (getRuns [runAX, runBY] ["A"] true = [runAX] ∧
      getRuns [runAX, runBY] ["A", "B"] true = [runAX, runBY] ∧
      getRuns [runAX, runBY] ["A", "B"] false = []) := by
  have hsub : (getRuns store filters b).Sublist store := by
    rw [getRuns]
    by_cases he : filters.isEmpty
    · rw [if_pos he]
    · rw [if_neg he]
      exact List.filter_sublist _
  refine ⟨by simp [getRuns], hsub, ?_, ?_, ?_, by decide⟩
  · intro hne r
    have he : filters.isEmpty = false := by simpa using hne
    rw [getRuns, he, if_neg (by simp), List.mem_filter]
    simp [matchesAny, List.any_eq_true]
  · intro hne r
    have he : filters.isEmpty = false := by simpa using hne
    rw [getRuns, he, if_neg (by simp), List.mem_filter]
    simp [matchesAll, List.all_eq_true]
  · intro hinv
    exact List.Pairwise.sublist hsub hinv

/-- Claim C3 witness: the filter characterizations instantiated at the
spec's concrete store. -/
theorem getRuns_filter_semantics_witness :
    (runAX ∈ getRuns [runAX, runBY] ["A"] true ↔
      runAX ∈ [runAX, runBY] ∧ ∃ v ∈ ["A"], v ∈ runValues runAX) ∧
    (runBY ∈ getRuns [runAX, runBY] ["A", "B"] false ↔
      runBY ∈ [runAX, runBY] ∧ ∀ v ∈ ["A", "B"], v ∈ runValues runBY) ∧
    StoreInv (getRuns [runAX, runBY] ["A"] true) := by
  refine ⟨?_, ?_, ?_⟩
  · exact (getRuns_filter_semantics [runAX, runBY] ["A"] true).2.2.1
      (by decide) runAX
  · exact (getRuns_filter_semantics [runAX, runBY] ["A", "B"]
      false).2.2.2.1 (by decide) runBY
  · refine (getRuns_filter_semantics [runAX, runBY] ["A"] true).2.2.2.2.1 ?_
    refine List.Pairwise.cons ?_ (List.pairwise_singleton _ _)
    intro b hb
    rw [List.mem_singleton.mp hb]
    decide

/-- Claim C4: staging is idempotent with respect to value-equal Runs —
re-staging is a no-op, a Run already present (by key/value-mapping
equality) stays at exactly one copy with the store length unchanged, and
a Run not yet present is appended at the end, preserving insertion
order. -/
theorem stage_dedup_idempotent (store : List Run) (r : Run) :
    stageOne (stageOne store r) r = stageOne store r ∧
    (StoreInv store → MemR r store →
      stageOne store r = store ∧
      (stageOne store r).countP (fun a => runEq a r) = 1 ∧
      (getRuns (stageOne store r) [] true).length =
        (getRuns store [] true).length) ∧
    (¬ MemR r store → stageOne store r = store ++ [r]) := by
  refine ⟨?_, ?_, ?_⟩
  · have hp : present (stageOne store r) r = true :=
      present_iff.mpr (memR_stageOne.mpr (Or.inr (runEq_refl r)))
    exact stageOne_of_present hp
  · intro hinv hm
    have hp : present store r = true := present_iff.mpr hm
    have heq := stageOne_of_present hp
    refine ⟨heq, ?_, ?_⟩
    · rw [heq]
      exact count_eq_one_of_present hinv hp
    · rw [heq]
  · intro hm
    have hp : present store r = false := by
      cases hcase : present store r with
      | false => rfl
      | true => exact absurd (present_iff.mp hcase) hm
    exact stageOne_of_not_present hp

/-- Claim C4 witness: restaging a value-equal Run (even with its pairs
listed in a different order) leaves exactly one copy; a fresh Run is
appended at the end. -/
theorem stage_dedup_idempotent_witness :
    stageOne [runAX] [("e1", "X"), ("s1", "A")] = [runAX] ∧
    ([runAX].countP (fun a => runEq a [("e1", "X"), ("s1", "A")])) = 1 ∧
    stageOne [runAX] runBY = [runAX, runBY] := by
  have h := stage_dedup_idempotent [runAX] [("e1", "X"), ("s1", "A")]
  have hmem : MemR [("e1", "X"), ("s1", "A")] [runAX] :=
    ⟨runAX, List.mem_singleton.mpr rfl, by decide⟩
  have hinv : StoreInv [runAX] := List.pairwise_singleton _ _
  obtain ⟨heq, hcount, _⟩ := h.2.1 hinv hmem
  refine ⟨heq, ?_, ?_⟩
  · rw [← heq]
    exact hcount
  · have h2 := (stage_dedup_idempotent [runAX] runBY).2.2
      (fun hm => by
        obtain ⟨a, ha, hab⟩ := hm
        rw [List.mem_singleton.mp ha] at hab
        revert hab
        decide)
    exact h2

/-- Claim C9: a store constructed from a collection of source stores
contains exactly the union of their Runs (by value-equality), with
duplicates dropped, pairwise duplicate-free, and later sources never
overwriting earlier ones; constructing from three single-Run stores with
distinct Runs yields a 3-element store, and re-staging those Runs
afterwards adds nothing. -/
theorem merge_union (sources : List (List Run)) :
    (∀ x, MemR x (mergeStores sources) ↔ ∃ s ∈ sources, MemR x s) ∧
    StoreInv (mergeStores sources) ∧
    (∀ (acc : List Run) (r : Run), present acc r = true →
      stageOne acc r = acc) ∧
    (mergeStores [[runEx1], [runEx2], [runEx3]] = [runEx1, runEx2, runEx3] ∧
      [runEx1, runEx2, runEx3].foldl stageOne
          (mergeStores [[runEx1], [runEx2], [runEx3]]) =
        mergeStores [[runEx1], [runEx2], [runEx3]]) := by
  have hgen : ∀ (srcs : List (List Run)) (acc : List Run) (x : Run),
      MemR x (srcs.foldl (fun a s => s.foldl stageOne a) acc) ↔
        MemR x acc ∨ ∃ s ∈ srcs, MemR x s := by
    intro srcs
    induction srcs with
    | nil => simp
    | cons s t ih =>
      intro acc x
      rw [List.foldl_cons, ih, memR_foldl_stageOne]
      constructor
      · rintro ((hm | hm) | ⟨s', hs', hm⟩)
        · exact Or.inl hm
        · exact Or.inr ⟨s, List.mem_cons_self _ _, hm⟩
        · exact Or.inr ⟨s', List.mem_cons_of_mem _ hs', hm⟩
      · rintro (hm | ⟨s', hs', hm⟩)
        · exact Or.inl (Or.inl hm)
        · rcases List.mem_cons.mp hs' with rfl | hm'
          · exact Or.inl (Or.inr hm)
          · exact Or.inr ⟨s', hm', hm⟩
  have hinvgen : ∀ (srcs : List (List Run)) (acc : List Run),
      StoreInv acc →
        StoreInv (srcs.foldl (fun a s => s.foldl stageOne a) acc) := by
    intro srcs
    induction srcs with
    | nil => intro acc h; exact h
    | cons s t ih =>
      intro acc h
      rw [List.foldl_cons]
      exact ih _ (storeInv_foldl_stageOne s acc h)
  refine ⟨?_, ?_, ?_, by decide, by decide⟩
  · intro x
    rw [mergeStores, hgen]
    simp [MemR]
  · exact hinvgen sources [] (List.Pairwise.nil)
  · intro acc r hp
    exact stageOne_of_present hp

/-- Claim C9 witness: the union characterization at the notebook's
three-store example. -/
theorem merge_union_witness :
    MemR runEx2 (mergeStores [[runEx1], [runEx2], [runEx3]]) ∧
    StoreInv (mergeStores [[runEx1], [runEx2], [runEx3]]) := by
  refine ⟨?_, ?_⟩
  · exact (merge_union [[runEx1], [runEx2], [runEx3]]).1 runEx2 |>.mpr
      ⟨[runEx2], by decide, runEx2, List.mem_singleton.mpr rfl,
        runEq_refl runEx2⟩
  · exact (merge_union [[runEx1], [runEx2], [runEx3]]).2.1

/-- Claim C1: schema inference succeeds exactly when every control file
of the group embeds the same set of argument keys in its name, and fails
with a schema error when two files of the group disagree; in particular
the spec's example of key sets `{s1,e1}` and `{s1,e1,e2}` in one group
fails, both on parsed control files and straight from the file names. -/
theorem schema_inference_consistency (files : List ControlFile)
    (group : Option String) :
    ((∃ s, inferSchema files group = .ok s) ↔
      ∀ f1 ∈ relevantFiles files group, ∀ f2 ∈ relevantFiles files group,
        keySetEq f1.keys f2.keys = true) ∧
    ((∃ f1 ∈ relevantFiles files group, ∃ f2 ∈ relevantFiles files group,
        keySetEq f1.keys f2.keys = false) →
      inferSchema files group = .error .mismatch) ∧
    inferSchema mismatchFiles (some "G") = .error .mismatch ∧
    inferSchemaNames ["G_~s1~_~e1~_01.tcf", "G_~s1~_~e1~_~e2~_01.tcf"]
      (some "G") = .error .mismatch := by
  have hiff : (∃ s, inferSchema files group = .ok s) ↔
      ∀ f1 ∈ relevantFiles files group, ∀ f2 ∈ relevantFiles files group,
        keySetEq f1.keys f2.keys = true := by
    rw [inferSchema]
    cases hrel : relevantFiles files group with
    | nil =>
      simp only [hrel]
      constructor
      · intro _ f1 hf1
        cases hf1
      · intro _
        exact ⟨⟨[], []⟩, rfl⟩
    | cons f rest =>
      by_cases hall : rest.all (fun f2 => keySetEq f.keys f2.keys) = true
      · simp only [hall, if_true]
        constructor
        · intro _ f1 hf1 f2 hf2
          rw [List.all_eq_true] at hall
          have h1 : keySetEq f.keys f1.keys = true := by
            rcases List.mem_cons.mp hf1 with rfl | hm
            · exact keySetEq_refl _
            · exact hall f1 hm
          have h2 : keySetEq f.keys f2.keys = true := by
            rcases List.mem_cons.mp hf2 with rfl | hm
            · exact keySetEq_refl _
            · exact hall f2 hm
          exact keySetEq_trans (keySetEq_symm h1) h2
        · intro _
          exact ⟨_, rfl⟩
      · simp only [if_neg hall]
        constructor
        · rintro ⟨s, hs⟩
          cases hs
        · intro h
          exfalso
          apply hall
          rw [List.all_eq_true]
          intro f2 hf2
          exact h f (List.mem_cons_self _ _) f2 (List.mem_cons_of_mem _ hf2)
  refine ⟨hiff, ?_, rfl, rfl⟩
  rintro ⟨f1, hf1, f2, hf2, hfalse⟩
  cases hres : inferSchema files group with
  | ok s =>
    have := hiff.mp ⟨s, hres⟩ f1 hf1 f2 hf2
    rw [this] at hfalse
    cases hfalse
  | error e =>
    cases e
    rfl

/-- Claim C1 witness: the general mismatch direction instantiated at the
spec's concrete two-file example. -/
theorem schema_inference_consistency_witness :
    inferSchema mismatchFiles (some "G") = .error .mismatch := by
  refine (schema_inference_consistency mismatchFiles (some "G")).2.1 ?_
  refine ⟨⟨"G", ["s1", "e1"], "01"⟩, by decide,
    ⟨"G", ["s1", "e1", "e2"], "01"⟩, by decide, by decide⟩

/-- Claim C5: the File Resolver maps (Run, run-number, group id) to
exactly one control-file path — the Run `{s1:Exg, e1:Q100}` with
run-number `006` and group `EG16` resolves to `EG16_Exg_Q100_006.tcf`
and to no other file of the demonstration root; and in general zero
matching files raise ResolutionError while more than one raise
AmbiguousResolutionError. -/
theorem resolver_round_trip :
    (resolveFile demoFiles "EG16" ["s1", "e1"] run006 (some "006") =
        .ok "EG16_Exg_Q100_006.tcf" ∧
      demoFiles.filter (nameMatches "EG16" ["s1", "e1"] run006
          (some "006")) = ["EG16_Exg_Q100_006.tcf"]) ∧
    (∀ (files : List String) (group : String) (schema : List String)
        (r : Run) (rn : Option String),
      files.filter (nameMatches group schema r rn) = [] →
        resolveFile files group schema r rn = .error .resolution) ∧
    (∀ (files : List String) (group : String) (schema : List String)
        (r : Run) (rn : Option String) (f1 f2 : String)
        (rest : List String),
      files.filter (nameMatches group schema r rn) = f1 :: f2 :: rest →
        resolveFile files group schema r rn = .error .ambiguous) := by
  refine ⟨⟨rfl, rfl⟩, ?_, ?_⟩
  · intro files group schema r rn h
    rw [resolveFile, h]
  · intro files group schema r rn f1 f2 rest h
    rw [resolveFile, h]

/-- Claim C5 witness: an empty root raises ResolutionError and a root
with a duplicated matching name raises AmbiguousResolutionError. -/
theorem resolver_round_trip_witness :
    resolveFile [] "EG16" ["s1", "e1"] run006 (some "006") =
      .error .resolution ∧
    resolveFile ["EG16_Exg_Q100_006.tcf", "EG16_Exg_Q100_006.tcf"]
        "EG16" ["s1", "e1"] run006 (some "006") = .error .ambiguous := by
  constructor
  · exact resolver_round_trip.2.1 [] "EG16" ["s1", "e1"] run006
      (some "006") rfl
  · exact resolver_round_trip.2.2
      ["EG16_Exg_Q100_006.tcf", "EG16_Exg_Q100_006.tcf"] "EG16"
      ["s1", "e1"] run006 (some "006") "EG16_Exg_Q100_006.tcf"
      "EG16_Exg_Q100_006.tcf" [] rfl

/-- Claim C6: in every state of the dispatch loop reachable from a state
within the concurrency budget (in particular from the initial state,
where nothing is Running), the number of processes simultaneously in the
Running state never exceeds the configured `async_runs` limit. -/
theorem concurrency_bound {α : Type} [DecidableEq α] (limit : Nat)
    (init s : SupState α) (h0 : init.running.length ≤ limit)
    (hr : SupReachable limit init s) : s.running.length ≤ limit := by
  induction hr with
  | refl => exact h0
  | step _ hstep ih => exact supStep_running_bound hstep ih

/-- Claim C6 witness: with `async_runs = 2` and 5 queued runs, the state
after two dispatches is reachable and respects the bound. -/
theorem concurrency_bound_witness :
    SupReachable 2 (⟨[0, 1, 2, 3, 4], [], [], false⟩ : SupState Nat)
      ⟨[2, 3, 4], [1, 0], [], false⟩ ∧
    ([1, 0] : List Nat).length ≤ 2 := by
  have h1 : SupStep 2 (⟨[0, 1, 2, 3, 4], [], [], false⟩ : SupState Nat)
      ⟨[1, 2, 3, 4], [0], [], false⟩ :=
    SupStep.start 0 [1, 2, 3, 4] [] [] (by decide)
  have h2 : SupStep 2 (⟨[1, 2, 3, 4], [0], [], false⟩ : SupState Nat)
      ⟨[2, 3, 4], [1, 0], [], false⟩ :=
    SupStep.start 1 [2, 3, 4] [0] [] (by decide)
  have hr : SupReachable 2 (⟨[0, 1, 2, 3, 4], [], [], false⟩ : SupState Nat)
      ⟨[2, 3, 4], [1, 0], [], false⟩ :=
    SupReachable.step (SupReachable.step SupReachable.refl h1) h2
  exact ⟨hr, concurrency_bound 2 ⟨[0, 1, 2, 3, 4], [], [], false⟩
    ⟨[2, 3, 4], [1, 0], [], false⟩ (by decide) hr⟩

/-- Claim C7: cancellation drains rather than kills — after `stop()`,
every Run that was Running reaches a terminal state with the graceful
interrupt's exit code recorded (none is force-killed: the drained state
is reached through ordinary exit transitions of the step relation), no
Run that was Queued ever leaves the queue, and in every state reachable
after the stop the queue is still exactly what it was. -/
theorem stop_drains {α : Type} [DecidableEq α] (limit : Nat) (icode : Int)
    (s : SupState α) :
    (stopDrain icode s).queued = s.queued ∧
    (stopDrain icode s).running = [] ∧
    (∀ r ∈ s.running, (r, icode) ∈ (stopDrain icode s).finished) ∧
    SupReachable limit s (stopDrain icode s) ∧
    (∀ s', SupReachable limit (stopDrain icode s) s' →
      s'.queued = s.queued ∧ s'.cancelled = true) := by
  obtain ⟨queued, running, finished, c⟩ := s
  refine ⟨rfl, rfl, ?_, ?_, ?_⟩
  · intro r hr
    exact mem_runLoop (fun _ => icode) running finished r hr
  · have hstop : SupStep limit
        (⟨queued, running, finished, c⟩ : SupState α)
        ⟨queued, running, finished, true⟩ :=
      SupStep.stop queued running finished c
    exact supReachable_trans (SupReachable.step SupReachable.refl hstop)
      (supReachable_drain limit icode running queued finished)
  · intro s' hr'
    have hfr := @supReachable_cancelled_frame α _ limit
      (stopDrain icode ⟨queued, running, finished, c⟩) s' hr' rfl
    exact ⟨hfr.1, hfr.2⟩

/-- Claim C7 witness: with 2 of 5 runs Running at the moment of stop,
those 2 reach a terminal state and the remaining 3 stay Queued in every
subsequent state. -/
theorem stop_drains_witness :
    ((0 : Nat), (-2 : Int)) ∈
      (stopDrain (-2) (⟨[2, 3, 4], [0, 1], [], false⟩ : SupState Nat)).finished ∧
    ((1 : Nat), (-2 : Int)) ∈
      (stopDrain (-2) (⟨[2, 3, 4], [0, 1], [], false⟩ : SupState Nat)).finished ∧
    (stopDrain (-2) (⟨[2, 3, 4], [0, 1], [], false⟩ : SupState Nat)).queued =
      [2, 3, 4] ∧
    (stopDrain (-2) (⟨[2, 3, 4], [0, 1], [], false⟩ : SupState Nat)).queued =
      (⟨[2, 3, 4], [0, 1], [], false⟩ : SupState Nat).queued := by
  have h := stop_drains (α := Nat) 2 (-2) ⟨[2, 3, 4], [0, 1], [], false⟩
  refine ⟨h.2.2.1 0 (by decide), h.2.2.1 1 (by decide), ?_, h.1⟩
  have h5 := (h.2.2.2.2 (stopDrain (-2) ⟨[2, 3, 4], [0, 1], [], false⟩)
    SupReachable.refl).1
  exact h5

/-- Claim C8: in the absence of cancellation, `run()` dispatches every
staged Run regardless of the exit codes of earlier ones (the dispatch
loop never branches on a recorded code), leaves no Run short of a
terminal state, reports the single completion summary, and — when the
supervisor starts idle with at least one slot — its final state is
reached through the step relation. -/
theorem failures_do_not_halt {α : Type} [DecidableEq α] (limit : Nat)
    (exitCode : α → Int) (s : SupState α) (h : s.cancelled = false) :
    (∀ r ∈ s.queued, (r, exitCode r) ∈ (runAll exitCode s).1.finished) ∧
    (runAll exitCode s).1.queued = [] ∧
    (runAll exitCode s).2 = true ∧
    (s.running = [] → 1 ≤ limit →
      SupReachable limit s (runAll exitCode s).1) := by
  obtain ⟨queued, running, finished, c⟩ := s
  cases h
  refine ⟨?_, rfl, rfl, ?_⟩
  · intro r hr
    exact mem_runLoop exitCode queued finished r hr
  · intro hrun hlimit
    cases hrun
    exact supReachable_runQueue hlimit exitCode queued finished

/-- Claim C8 witness: with an exit-code assignment under which the first
run fails (non-zero code), every queued run is still dispatched and the
completion summary is reported. -/
theorem failures_do_not_halt_witness :
    (fun n => if n = 0 then (1 : Int) else 0) 0 ≠ 0 ∧
    ((0 : Nat), (fun n => if n = 0 then (1 : Int) else 0) 0) ∈
      (runAll (fun n => if n = 0 then (1 : Int) else 0)
        (⟨[0, 1, 2], [], [], false⟩ : SupState Nat)).1.finished ∧
    ((1 : Nat), (fun n => if n = 0 then (1 : Int) else 0) 1) ∈
      (runAll (fun n => if n = 0 then (1 : Int) else 0)
        (⟨[0, 1, 2], [], [], false⟩ : SupState Nat)).1.finished ∧
    (runAll (fun n => if n = 0 then (1 : Int) else 0)
      (⟨[0, 1, 2], [], [], false⟩ : SupState Nat)).2 = true := by
  have h := failures_do_not_halt (α := Nat) 2
    (fun n => if n = 0 then (1 : Int) else 0) ⟨[0, 1, 2], [], [], false⟩ rfl
  exact ⟨by decide, h.1 0 (by decide), h.1 1 (by decide), h.2.2.1⟩

/-- Claim C10: executing the queue does not consume it — `run()` leaves
the staged Run Store unchanged (the supervisor's queue is emptied, not
the store), `get_runs()` yields the same sequence afterwards, the
dispatched sequence is exactly the staged sequence in staging order, and
a second `run()` on the same Runner dispatches exactly the same Runs in
the same order. -/
theorem run_preserves_store (rn : Runner) (exitCode exitCode' : Run → Int)
    (filters : List String) (b : Bool) :
    ((rn.run exitCode).1).store = rn.store ∧
    ((rn.run exitCode).1).get_runs filters b = rn.get_runs filters b ∧
    ((rn.run exitCode).2.1).queued = [] ∧
    ((rn.run exitCode).2.1).finished.reverse.map Prod.fst = rn.store ∧
    (((rn.run exitCode).1).run exitCode').2.1.finished.reverse.map
        Prod.fst = rn.store ∧
    ((rn.run exitCode).1).run exitCode = rn.run exitCode := by
  have hfin : ∀ (e : Run → Int),
      (runLoop e rn.store []).reverse.map Prod.fst = rn.store := by
    intro e
    rw [runLoop_eq_reverse_map, List.append_nil, List.reverse_reverse,
      List.map_map]
    have hid : ∀ l : List Run, List.map (fun p : Run => p) l = l := by
      intro l
      induction l with
      | nil => rfl
      | cons x t ih => rw [List.map_cons, ih]
    exact hid rn.store
  exact ⟨rfl, rfl, rfl, hfin exitCode, hfin exitCode', rfl⟩

end Simrunner
